import Mathlib

/-!
Shallow embedding of the core of the `goup` dependency updater:
the dependency data model (`internal/dependency`), the filter/sort
policy (`FilterDependencies`, `sortDependencies`), the selection
parser (`internal/selector`), the interactive selection loop
(`Select`), and the update orchestrator (`internal/updater`,
`internal/app`).

Strings are modelled with Lean `String` (character-level); Go operates
on bytes, but for valid UTF-8 the byte-level substring searches and
lexicographic comparisons used here agree with the character-level
ones, since UTF-8 is self-synchronizing and order-preserving.
-/

namespace Goup

/-- The `Dependency` struct from `internal/dependency` (types file):
`Path`, `Version`, `NewVersion`, `Indirect`, `HasUpdate`. -/
structure Dependency where
  Path : String
  Version : String
  NewVersion : String
  Indirect : Bool
  HasUpdate : Bool
  deriving DecidableEq, Repr, Inhabited

/-! ### String helpers mirroring the Go standard library

These are written over `List Char` by structural recursion (rather
than through the byte-position-based core `String` functions) so that
every definition evaluates by kernel reduction on concrete inputs. -/

/-- `strings.TrimSpace` on the character list: drop whitespace from
both ends (Go trims the Unicode space class; the inputs of interest
are ASCII, where `Char.isWhitespace` agrees). -/
def trimChars (cs : List Char) : List Char :=
  ((cs.dropWhile Char.isWhitespace).reverse.dropWhile
    Char.isWhitespace).reverse

/-- `strings.TrimSpace`. -/
def trimStr (s : String) : String := ⟨trimChars s.data⟩

/-- `strings.ToLower` (ASCII case folding, as used on module paths). -/
def toLowerStr (s : String) : String := ⟨s.data.map Char.toLower⟩

/-- `strings.Split(s, sep)` for a one-character separator, on the
character list: `[]` maps to `[""]`, like Go. -/
def splitChar (c : Char) : List Char → List (List Char)
  | [] => [[]]
  | x :: xs =>
    if x = c then [] :: splitChar c xs
    else
      match splitChar c xs with
      | [] => [[x]]
      | l :: ls => (x :: l) :: ls

/-- `strings.Split(s, sep)` for a one-character separator. -/
def splitStr (s : String) (c : Char) : List String :=
  (splitChar c s.data).map (fun l => ⟨l⟩)

/-- `strings.Contains(s, sep)` for a one-character needle. -/
def containsChar (s : String) (c : Char) : Bool :=
  s.data.any (· == c)

/-- `strings.Index(hay, pat)` at character level: index of the first
occurrence of `pat` in `hay`, or `none` (Go returns -1). -/
def indexOfSub (hay pat : List Char) : Option Nat :=
  if pat.isPrefixOf hay then some 0
  else
    match hay with
    | [] => none
    | _ :: t => (indexOfSub t pat).map (· + 1)

/-- `strconv.Atoi`: an optional sign followed by one or more decimal
digits, with the 64-bit `int` range check of `strconv.ParseInt`. -/
def atoi (s : String) : Option Int :=
  let p : Bool × List Char :=
    match s.data with
    | '+' :: rest => (false, rest)
    | '-' :: rest => (true, rest)
    | cs => (false, cs)
  let ds := p.2
  if ds.isEmpty || !(ds.all Char.isDigit) then none
  else
    let v : Nat := ds.foldl (fun a c => a * 10 + (c.toNat - '0'.toNat)) 0
    if p.1 then
      if v ≤ 2 ^ 63 then some (-(v : Int)) else none
    else
      if v ≤ 2 ^ 63 - 1 then some (v : Int) else none

/-! ### Filter/sort policy (`internal/dependency/manager.go`) -/

/-- `FilterDependencies`: identity when `includeIndirect`, otherwise
keep only the records whose `Indirect` flag is unset. -/
def FilterDependencies (deps : List Dependency) (includeIndirect : Bool) :
    List Dependency :=
  if includeIndirect then deps
  else deps.filter (fun dep => !dep.Indirect)

/-- The comparator of `sortDependencies`: if one record is direct and
the other indirect the direct one comes first, otherwise compare by
path. -/
def depLess (a b : Dependency) : Bool :=
  if a.Indirect != b.Indirect then !a.Indirect
  else decide (a.Path < b.Path)

/-- Insert into a list sorted by `depLess` (the embedding realizes
`sort.Slice` as insertion sort; the properties proved below depend
only on the output being a sorted permutation). -/
def insertDep (d : Dependency) : List Dependency → List Dependency
  | [] => [d]
  | e :: rest => if depLess e d then e :: insertDep d rest else d :: e :: rest

/-- `sortDependencies`: sort with `depLess` (direct before indirect,
then ascending path). -/
def sortDependencies (deps : List Dependency) : List Dependency :=
  deps.foldr insertDep []

/-- The ordering the sorted list satisfies pairwise: a non-indirect
record may precede an indirect one, and records of the same kind are
in ascending path order. -/
def canonicalLe (a b : Dependency) : Prop :=
  (a.Indirect = false ∧ b.Indirect = true) ∨
  (a.Indirect = b.Indirect ∧ a.Path ≤ b.Path)

instance (a b : Dependency) : Decidable (canonicalLe a b) := by
  unfold canonicalLe; infer_instance

/-! ### Selection parser (`internal/selector/selector.go`) -/

/-- The error cases of the parser, one constructor per `fmt.Errorf`
call site in `selector.go`. -/
inductive SelErr where
  | numberOutOfRange (n : Int) (max : Nat)
  | invalidRangeFormat (part : String)
  | invalidStartNumber (tok : String)
  | invalidEndNumber (tok : String)
  | rangeOutOfBounds (lo hi : Int) (max : Nat)
  | noPatternMatch (pat : String)
  deriving DecidableEq, Repr

/-- `containsDependency`: membership by `Path` equality. -/
def containsDependency (slice : List Dependency) (dep : Dependency) : Bool :=
  slice.any (fun item => item.Path == dep.Path)

/-- The segment loop of `matchesPattern` for a wildcard pattern: every
non-empty segment between `*`s must occur in order, `idx` being the
search start (Go keeps `index` into `path`). -/
def matchSegs (path : List Char) : List String → Nat → Bool
  | [], _ => true
  | seg :: rest, idx =>
    if seg = "" then matchSegs path rest idx
    else
      match indexOfSub (path.drop idx) seg.toList with
      | none => false
      | some n => matchSegs path rest (idx + n + seg.length)

/-- `matchesPattern`: substring containment when the pattern has no
`*`, otherwise ordered occurrence of the segments split on `*`. -/
def matchesPattern (path pattern : String) : Bool :=
  if !(containsChar pattern '*') then
    (indexOfSub path.data pattern.data).isSome
  else matchSegs path.data (splitStr pattern '*') 0

/-- `matchPattern`: walk `deps`, appending each record whose lowered
path matches and is not yet selected; `matched` is the loop's flag,
returned alongside the grown selection. -/
def matchPattern (pattern : String) (deps : List Dependency)
    (selected : List Dependency) (matched : Bool) :
    List Dependency × Bool :=
  match deps with
  | [] => (selected, matched)
  | dep :: rest =>
    if matchesPattern (toLowerStr dep.Path) pattern then
      if containsDependency selected dep then
        matchPattern pattern rest selected matched
      else
        matchPattern pattern rest (selected ++ [dep]) true
    else
      matchPattern pattern rest selected matched

/-- `parseRange`: split the clause on `-` into exactly two tokens,
parse both as integers, bounds-check, and collect the records of the
loop `for i := start-1; i < end; i++`, i.e. positions `start..end`
(1-based). -/
def parseRange (part : String) (deps : List Dependency) :
    Except SelErr (List Dependency) :=
  match splitStr part '-' with
  | [s1, s2] =>
    match atoi (trimStr s1) with
    | none => .error (.invalidStartNumber s1)
    | some lo =>
      match atoi (trimStr s2) with
      | none => .error (.invalidEndNumber s2)
      | some hi =>
        if lo < 1 || hi > (deps.length : Int) || lo > hi then
          .error (.rangeOutOfBounds lo hi deps.length)
        else
          .ok ((deps.drop (lo.toNat - 1)).take (hi.toNat - (lo.toNat - 1)))
  | _ => .error (.invalidRangeFormat part)

/-- The clause loop of `ParseSelection`: each comma-separated part is
a range (contains `-`), a 1-based index, or a pattern, accumulating
into `selected`; the first failing clause aborts. -/
def parseParts (deps : List Dependency) :
    List String → List Dependency → Except SelErr (List Dependency)
  | [], selected => .ok selected
  | p :: rest, selected =>
    if containsChar (trimStr p) '-' then
      match parseRange (trimStr p) deps with
      | .error e => .error e
      | .ok rangeDeps => parseParts deps rest (selected ++ rangeDeps)
    else
      match atoi (trimStr p) with
      | some num =>
        if num < 1 || num > (deps.length : Int) then
          .error (.numberOutOfRange num deps.length)
        else
          if containsDependency selected (deps.getD (num.toNat - 1) default) then
            parseParts deps rest selected
          else
            parseParts deps rest
              (selected ++ [deps.getD (num.toNat - 1) default])
      | none =>
        match matchPattern (trimStr p) deps selected false with
        | (selected2, matched) =>
          if matched then parseParts deps rest selected2
          else .error (.noPatternMatch (trimStr p))

/-- `ParseSelection`: trim and lower the input, short-circuit `all`,
otherwise split on `,` and run the clause loop. -/
def ParseSelection (input : String) (deps : List Dependency) :
    Except SelErr (List Dependency) :=
  if toLowerStr (trimStr input) = "all" then .ok deps
  else parseParts deps (splitStr (toLowerStr (trimStr input)) ',') []

/-! ### Update orchestrator (`internal/updater/updater.go`,
`internal/app/app.go`)

The external command runner (`go get -u <path>`) is the opaque
collaborator; it is modelled as a function `run` returning `none` on
success and `some msg` on failure. -/

/-- `UpdateError`: a failed record together with its reason. -/
structure UpdateError where
  Dep : Dependency
  Error : String
  deriving DecidableEq, Repr

/-- `UpdateResult`: updated records, failures, and the overall flag. -/
structure UpdateResult where
  Updated : List Dependency
  Failed : List UpdateError
  Success : Bool
  deriving DecidableEq, Repr

/-- The body of the loop of `UpdateDependencies`: run the update
command for one record and append to `Updated` or `Failed`. -/
def updateStep (run : Dependency → Option String)
    (result : UpdateResult) (dep : Dependency) : UpdateResult :=
  match run dep with
  | some e => { result with Failed := result.Failed ++ [⟨dep, e⟩] }
  | none => { result with Updated := result.Updated ++ [dep] }

/-- `UpdateDependencies`: attempt every record in order, then set
`Success` to whether `Failed` is empty. -/
def UpdateDependencies (run : Dependency → Option String)
    (deps : List Dependency) : UpdateResult :=
  let result := deps.foldl (updateStep run) ⟨[], [], false⟩
  { result with Success := result.Failed.isEmpty }

/-- `updateWithProgress` (app.go): call `UpdateDependencies` on each
singleton, then merge the per-record results, `Success` being the
conjunction. -/
def updateWithProgress (run : Dependency → Option String)
    (deps : List Dependency) : UpdateResult :=
  let allResults := deps.map (fun dep => UpdateDependencies run [dep])
  allResults.foldl
    (fun acc r =>
      { Updated := acc.Updated ++ r.Updated
        Failed := acc.Failed ++ r.Failed
        Success := acc.Success && r.Success })
    ⟨[], [], true⟩

/-! ### Interactive selection flow (`Select` in `selector.go`)

The UI collaborator is modelled as a finite stream of interaction
events, one per loop iteration: either `ReadInput` fails with an
error, or it yields a line together with the answer the user would
give to the subsequent `Confirm`.  Running out of events returns
`none` (the loop itself has no iteration limit). -/

/-- One loop iteration's worth of UI interaction. -/
inductive UIEvent where
  | readFailure (msg : String)
  | line (input : String) (confirm : Bool)
  deriving DecidableEq, Repr

/-- `SelectionResult`: chosen records, cancellation flag, and the
optional terminal error. -/
structure SelectionResult where
  Selected : List Dependency
  Cancelled : Bool
  Error : Option String
  deriving DecidableEq, Repr

/-- The `for` loop of `Select`: read a line; a read failure is
terminal; an empty trimmed line cancels; a parse error or an empty
parse result re-prompts; otherwise confirm, accepting on yes and
re-prompting on no. -/
def SelectLoop (deps : List Dependency) :
    List UIEvent → Option SelectionResult
  | [] => none
  | ev :: rest =>
    match ev with
    | .readFailure msg =>
      some ⟨[], false, some ("reading input: " ++ msg)⟩
    | .line input confirm =>
      if trimStr input = "" then some ⟨[], true, none⟩
      else
        match ParseSelection (trimStr input) deps with
        | .error _ => SelectLoop deps rest
        | .ok selected =>
          if selected.isEmpty then SelectLoop deps rest
          else if confirm then some ⟨selected, false, none⟩
          else SelectLoop deps rest

/-- `Select`: an empty dependency list returns immediately with an
empty selection; otherwise the interaction loop runs. -/
def Select (deps : List Dependency) (events : List UIEvent) :
    Option SelectionResult :=
  if deps.isEmpty then some ⟨[], false, none⟩
  else SelectLoop deps events

/-! ### Concrete records used by witnesses and counterexamples -/

def depA : Dependency := ⟨"a", "v1", "v2", false, true⟩

def depB : Dependency := ⟨"b/x", "v1", "v2", true, true⟩

def depC : Dependency := ⟨"c", "v1", "v2", false, true⟩

/-! ### Helper lemmas for the update orchestrator -/

theorem update_foldl_spec (run : Dependency → Option String) :
    ∀ (deps : List Dependency) (res : UpdateResult),
      deps.foldl (updateStep run) res =
        ⟨res.Updated ++ deps.filter (fun d => (run d).isNone),
         res.Failed ++ (deps.filter (fun d => (run d).isSome)).map
           (fun d => ⟨d, (run d).getD ""⟩),
         res.Success⟩ := by
  intro deps
  induction deps with
  | nil => intro res; simp
  | cons d rest ih =>
    intro res
    cases h : run d <;>
      simp [updateStep, h, ih, List.filter_cons, List.append_assoc]

theorem update_merge_spec (run : Dependency → Option String) :
    ∀ (deps : List Dependency) (acc : UpdateResult),
      (deps.map (fun dep => UpdateDependencies run [dep])).foldl
        (fun acc r =>
          { Updated := acc.Updated ++ r.Updated
            Failed := acc.Failed ++ r.Failed
            Success := acc.Success && r.Success }) acc =
      ⟨acc.Updated ++ deps.filter (fun d => (run d).isNone),
       acc.Failed ++ (deps.filter (fun d => (run d).isSome)).map
         (fun d => ⟨d, (run d).getD ""⟩),
       acc.Success && deps.all (fun d => (run d).isNone)⟩ := by
  intro deps
  induction deps with
  | nil => intro acc; simp
  | cons d rest ih =>
    intro acc
    have hsingle : UpdateDependencies run [d] =
        match run d with
        | none => ⟨[d], [], true⟩
        | some e => ⟨[], [⟨d, e⟩], false⟩ := by
      cases h : run d <;> simp [UpdateDependencies, updateStep, h]
    cases h : run d <;>
      simp [hsingle, h, ih, List.filter_cons, List.append_assoc]

theorem update_all_eq_isEmpty (run : Dependency → Option String)
    (deps : List Dependency) :
    deps.all (fun d => (run d).isNone) =
      ((deps.filter (fun d => (run d).isSome)).map
        (fun d => (⟨d, (run d).getD ""⟩ : UpdateError))).isEmpty := by
  induction deps with
  | nil => rfl
  | cons d rest ih => cases h : run d <;> simp [h, ih, List.filter_cons]

/-- C6: filtering with `includeIndirect = true` is the identity, and
filtering with `includeIndirect = false` returns exactly the
non-indirect elements in the same relative order. -/
theorem filterDependencies_spec (L : List Dependency) :
    FilterDependencies L true = L ∧
    (FilterDependencies L false).Sublist L ∧
    (∀ d, d ∈ FilterDependencies L false ↔ d ∈ L ∧ d.Indirect = false) ∧
    (∀ d, (FilterDependencies L false).count d =
      if d.Indirect = false then L.count d else 0) := by
  refine ⟨rfl, List.filter_sublist L, ?_, ?_⟩
  · intro d; simp [FilterDependencies]
  · intro d
    by_cases hd : d.Indirect = false
    · rw [if_pos hd]
      exact List.count_filter (by simp [hd])
    · rw [if_neg hd]
      rw [List.count_eq_zero]
      intro hmem
      rcases List.mem_filter.mp hmem with ⟨_, hind⟩
      simp at hind
      exact hd (by simp [hind])

/-- C9: `Select` on an empty dependency list returns an empty,
non-cancelled, error-free result for every possible interaction
stream, i.e. without consuming any input. -/
theorem select_empty_deps (events : List UIEvent) :
    Select [] events = some ⟨[], false, none⟩ := rfl

/-- C4: the orchestrator attempts every record in order (each input
record's own command outcome decides its destination, independently of
the other records), the overall flag is true iff `Failed` is empty,
and the app-level per-record driver agrees with the batch updater. -/
theorem updateDependencies_attempts_all (run : Dependency → Option String)
    (deps : List Dependency) :
    (UpdateDependencies run deps).Updated =
      deps.filter (fun d => (run d).isNone) ∧
    (UpdateDependencies run deps).Failed =
      (deps.filter (fun d => (run d).isSome)).map
        (fun d => ⟨d, (run d).getD ""⟩) ∧
    ((UpdateDependencies run deps).Success = true ↔
      (UpdateDependencies run deps).Failed = []) ∧
    updateWithProgress run deps = UpdateDependencies run deps := by
  have hfold := update_foldl_spec run deps ⟨[], [], false⟩
  have hupd : UpdateDependencies run deps =
      ⟨deps.filter (fun d => (run d).isNone),
       (deps.filter (fun d => (run d).isSome)).map
         (fun d => ⟨d, (run d).getD ""⟩),
       ((deps.filter (fun d => (run d).isSome)).map
         (fun d => (⟨d, (run d).getD ""⟩ : UpdateError))).isEmpty⟩ := by
    unfold UpdateDependencies
    rw [hfold]
    simp
  refine ⟨by rw [hupd], by rw [hupd], ?_, ?_⟩
  · rw [hupd]
    simp [List.isEmpty_iff]
  · have hmerge := update_merge_spec run deps ⟨[], [], true⟩
    unfold updateWithProgress
    rw [hmerge, hupd]
    simp [update_all_eq_isEmpty run deps]

/-- C10: the result of `UpdateDependencies` partitions the input —
every input record lands in exactly one of `Updated` and `Failed`,
the lengths add up, and both lists preserve the input's relative
order. -/
theorem updateDependencies_partition (run : Dependency → Option String)
    (deps : List Dependency) :
    List.Perm ((UpdateDependencies run deps).Updated ++
      (UpdateDependencies run deps).Failed.map UpdateError.Dep) deps ∧
    (UpdateDependencies run deps).Updated.length +
      (UpdateDependencies run deps).Failed.length = deps.length ∧
    (UpdateDependencies run deps).Updated.Sublist deps ∧
    ((UpdateDependencies run deps).Failed.map UpdateError.Dep).Sublist deps := by
  have hfold := update_foldl_spec run deps ⟨[], [], false⟩
  have hupdated : (UpdateDependencies run deps).Updated =
      deps.filter (fun d => (run d).isNone) := by
    unfold UpdateDependencies; rw [hfold]; simp
  have hfailed : (UpdateDependencies run deps).Failed.map UpdateError.Dep =
      deps.filter (fun d => (run d).isSome) := by
    unfold UpdateDependencies; rw [hfold]
    simp [List.map_map, Function.comp_def]
  have hsome : (fun d => (run d).isSome) = (fun d => !(run d).isNone) :=
    funext fun d => by cases run d <;> rfl
  have hperm : List.Perm ((UpdateDependencies run deps).Updated ++
      (UpdateDependencies run deps).Failed.map UpdateError.Dep) deps := by
    rw [hupdated, hfailed, hsome]
    exact List.filter_append_perm _ deps
  refine ⟨hperm, ?_, ?_, ?_⟩
  · have := hperm.length_eq
    simpa using this
  · rw [hupdated]; exact List.filter_sublist deps
  · rw [hfailed]; exact List.filter_sublist deps

/-! ### Helper lemmas for the sort policy -/

theorem canonicalLe_iff (a b : Dependency) :
    canonicalLe a b ↔ depLess b a = false := by
  unfold canonicalLe depLess
  cases ha : a.Indirect <;> cases hb : b.Indirect <;>
    simp [ha, hb, not_lt]

theorem depLess_asymm (a b : Dependency) (h : depLess a b = true) :
    depLess b a = false := by
  unfold depLess at *
  cases ha : a.Indirect <;> cases hb : b.Indirect <;>
    simp [ha, hb] at h ⊢
  all_goals exact le_of_lt h

theorem canonicalLe_trans {a b c : Dependency}
    (h1 : canonicalLe a b) (h2 : canonicalLe b c) : canonicalLe a c := by
  unfold canonicalLe at *
  rcases h1 with ⟨ha, hb⟩ | ⟨hab, hpab⟩ <;>
    rcases h2 with ⟨hb', hc⟩ | ⟨hbc, hpbc⟩
  · rw [hb] at hb'; cases hb'
  · exact Or.inl ⟨ha, hbc ▸ hb⟩
  · exact Or.inl ⟨hab ▸ hb', hc⟩
  · exact Or.inr ⟨hab.trans hbc, hpab.trans hpbc⟩

theorem insertDep_perm (d : Dependency) (l : List Dependency) :
    List.Perm (insertDep d l) (d :: l) := by
  induction l with
  | nil => exact List.Perm.refl _
  | cons e rest ih =>
    unfold insertDep
    by_cases h : depLess e d
    · rw [if_pos h]
      exact (ih.cons e).trans (List.Perm.swap d e rest)
    · rw [if_neg h]

theorem insertDep_pairwise (d : Dependency) (l : List Dependency)
    (hl : List.Pairwise canonicalLe l) :
    List.Pairwise canonicalLe (insertDep d l) := by
  induction l with
  | nil => simp [insertDep]
  | cons e rest ih =>
    rcases List.pairwise_cons.mp hl with ⟨he, hrest⟩
    unfold insertDep
    by_cases h : depLess e d
    · rw [if_pos h]
      refine List.pairwise_cons.mpr ⟨?_, ih hrest⟩
      intro x hx
      have hmem := (insertDep_perm d rest).mem_iff.mp hx
      rcases List.mem_cons.mp hmem with hxd | hx2
      · rw [hxd]
        exact (canonicalLe_iff e d).mpr (depLess_asymm e d h)
      · exact he x hx2
    · rw [if_neg h]
      have hde : canonicalLe d e :=
        (canonicalLe_iff d e).mpr (Bool.eq_false_iff.mpr h)
      refine List.pairwise_cons.mpr ⟨?_, hl⟩
      intro x hx
      rcases List.mem_cons.mp hx with hxe | hx'
      · rw [hxe]; exact hde
      · exact canonicalLe_trans hde (he x hx')

theorem sortDependencies_perm (l : List Dependency) :
    List.Perm (sortDependencies l) l := by
  induction l with
  | nil => exact List.Perm.refl _
  | cons d rest ih =>
    exact (insertDep_perm d _).trans (ih.cons d)

theorem sortDependencies_pairwise (l : List Dependency) :
    List.Pairwise canonicalLe (sortDependencies l) := by
  induction l with
  | nil => exact List.Pairwise.nil
  | cons d rest ih => exact insertDep_pairwise d _ ih

theorem sortDependencies_sorted_fix :
    ∀ l : List Dependency, List.Pairwise canonicalLe l →
      sortDependencies l = l := by
  intro l hl
  induction l with
  | nil => rfl
  | cons d rest ih =>
    rcases List.pairwise_cons.mp hl with ⟨hd, hrest⟩
    show insertDep d (sortDependencies rest) = d :: rest
    rw [ih hrest]
    cases rest with
    | nil => rfl
    | cons e rest' =>
      have hlt : depLess e d = false :=
        (canonicalLe_iff d e).mp (hd e (List.mem_cons_self e rest'))
      unfold insertDep
      rw [if_neg (by simp [hlt])]

/-- C3: sorting with the dependency manager's comparator yields a
permutation of the input in which no indirect record precedes a
non-indirect one and records of equal kind are in ascending
lexicographic path order. -/
theorem sortDependencies_canonical_order (l : List Dependency) :
    List.Perm (sortDependencies l) l ∧
    List.Pairwise canonicalLe (sortDependencies l) ∧
    List.Pairwise (fun a b => a.Indirect = true → b.Indirect = true)
      (sortDependencies l) ∧
    List.Pairwise (fun a b => a.Indirect = b.Indirect → a.Path ≤ b.Path)
      (sortDependencies l) := by
  refine ⟨sortDependencies_perm l, sortDependencies_pairwise l, ?_, ?_⟩
  · refine (sortDependencies_pairwise l).imp ?_
    intro a b hab
    rcases hab with ⟨ha, _⟩ | ⟨hab', _⟩
    · intro hc; rw [ha] at hc; cases hc
    · intro hc; rw [← hab']; exact hc
  · refine (sortDependencies_pairwise l).imp ?_
    intro a b hab heq
    rcases hab with ⟨ha, hb⟩ | ⟨_, hple⟩
    · rw [ha, hb] at heq; cases heq
    · exact hple

/-- C8: filtering is idempotent for both flag values, re-sorting a
sorted list is the identity, and in particular the canonical sort is
idempotent. -/
theorem filter_sort_idempotent (l : List Dependency) (b : Bool) :
    FilterDependencies (FilterDependencies l b) b = FilterDependencies l b ∧
    sortDependencies (sortDependencies l) = sortDependencies l ∧
    (List.Pairwise canonicalLe l → sortDependencies l = l) := by
  refine ⟨?_,
    sortDependencies_sorted_fix _ (sortDependencies_pairwise l),
    sortDependencies_sorted_fix l⟩
  cases b
  · simp [FilterDependencies, List.filter_filter]
  · rfl

/-- Witness for C8 at a concrete list. -/
theorem filter_sort_idempotent_witness :
    FilterDependencies (FilterDependencies [depA] false) false =
      FilterDependencies [depA] false ∧
    sortDependencies [depA] = [depA] :=
  ⟨(filter_sort_idempotent [depA] false).1,
   (filter_sort_idempotent [depA] false).2.2
     (List.pairwise_singleton canonicalLe depA)⟩

/-! ### The range clause against the spec's words -/

/-- Following the spec's words, for comparison with `parseRange`: a
range clause must split on `-` into exactly two tokens that parse as
integers after trimming and satisfy `1 ≤ start`, `end ≤ len(deps)`,
`start ≤ end`; it then contributes the records at 1-based positions
`start..end` inclusive, in ascending positional order. -/
def specRange (part : String) (deps : List Dependency) :
    Option (List Dependency) :=
  match splitStr part '-' with
  | [s1, s2] =>
    match atoi (trimStr s1), atoi (trimStr s2) with
    | some lo, some hi =>
      if 1 ≤ lo ∧ hi ≤ (deps.length : Int) ∧ lo ≤ hi then
        some ((List.range' lo.toNat (hi.toNat + 1 - lo.toNat)).map
          (fun p => deps.getD (p - 1) default))
      else none
    | _, _ => none
  | _ => none

theorem slice_eq_range_map (l : List Dependency) (lo hi : Int)
    (h1 : 1 ≤ lo) (h2 : hi ≤ (l.length : Int)) (h3 : lo ≤ hi) :
    (l.drop (lo.toNat - 1)).take (hi.toNat - (lo.toNat - 1)) =
    (List.range' lo.toNat (hi.toNat + 1 - lo.toNat)).map
      (fun p => l.getD (p - 1) default) := by
  have ha : 1 ≤ lo.toNat := by omega
  have hb : hi.toNat ≤ l.length := by omega
  have hab : lo.toNat ≤ hi.toNat := by omega
  apply List.ext_getElem
  · simp [List.length_take, List.length_drop, List.length_range']
    omega
  · intro i hi1 hi2
    rw [List.getElem_take, List.getElem_drop, List.getElem_map,
      List.getElem_range']
    have hidx : lo.toNat + 1 * i - 1 = lo.toNat - 1 + i := by omega
    rw [hidx]
    have hbound : lo.toNat - 1 + i < l.length := by
      simp [List.length_take, List.length_drop] at hi1
      omega
    rw [List.getD_eq_getElem l default hbound]

/-- C5: a clause containing `-` succeeds exactly when it splits into
two integer tokens within bounds with `start ≤ end`, and then yields
the records at 1-based positions `start..end` in ascending order:
`parseRange` refines the spec-worded `specRange`. -/
theorem parseRange_refines_spec (part : String) (deps : List Dependency) :
    (parseRange part deps).toOption = specRange part deps := by
  unfold parseRange specRange
  rcases hs : splitStr part '-' with _ | ⟨s1, _ | ⟨s2, _ | ⟨s3, rest⟩⟩⟩ <;>
    try rfl
  dsimp only
  cases h1 : atoi (trimStr s1) <;> try rfl
  case some lo =>
  dsimp only
  cases h2 : atoi (trimStr s2) <;> try rfl
  case some hi =>
  dsimp only
  by_cases hcond : 1 ≤ lo ∧ hi ≤ (deps.length : Int) ∧ lo ≤ hi
  · have hb : ¬ ((lo < 1 || hi > (deps.length : Int) || lo > hi : Bool) = true) := by
      simp only [Bool.or_eq_true, decide_eq_true_eq]
      omega
    rw [if_pos hcond, if_neg hb]
    dsimp [Except.toOption]
    rw [slice_eq_range_map deps lo hi hcond.1 hcond.2.1 hcond.2.2]
  · have hb : ((lo < 1 || hi > (deps.length : Int) || lo > hi : Bool)) = true := by
      simp only [Bool.or_eq_true, decide_eq_true_eq]
      omega
    rw [if_neg hcond, if_pos hb]
    rfl

/-! ### Pattern clauses -/

theorem matchPattern_sticky (pattern : String) :
    ∀ (deps selected : List Dependency),
      (matchPattern pattern deps selected true).2 = true := by
  intro deps
  induction deps with
  | nil => intro selected; rfl
  | cons d rest ih =>
    intro selected
    unfold matchPattern
    by_cases h1 : matchesPattern (toLowerStr d.Path) pattern = true
    · rw [if_pos h1]
      by_cases h2 : containsDependency selected d = true
      · rw [if_pos h2]; exact ih selected
      · rw [if_neg h2]; exact ih (selected ++ [d])
    · rw [if_neg h1]; exact ih selected

theorem matchPattern_snd_iff (pattern : String) :
    ∀ (deps selected : List Dependency) (m : Bool),
      (matchPattern pattern deps selected m).2 = true ↔
        (m = true ∨ ∃ d ∈ deps, matchesPattern (toLowerStr d.Path) pattern = true ∧
          containsDependency selected d = false) := by
  intro deps
  induction deps with
  | nil =>
    intro selected m
    simp [matchPattern]
  | cons d rest ih =>
    intro selected m
    unfold matchPattern
    by_cases h1 : matchesPattern (toLowerStr d.Path) pattern = true
    · rw [if_pos h1]
      by_cases h2 : containsDependency selected d = true
      · rw [if_pos h2]
        rw [ih selected m]
        constructor
        · rintro (hm | ⟨x, hx, hmx, hcx⟩)
          · exact Or.inl hm
          · exact Or.inr ⟨x, List.mem_cons_of_mem d hx, hmx, hcx⟩
        · rintro (hm | ⟨x, hx, hmx, hcx⟩)
          · exact Or.inl hm
          · rcases List.mem_cons.mp hx with hxd | hx2
            · rw [hxd, h2] at hcx; cases hcx
            · exact Or.inr ⟨x, hx2, hmx, hcx⟩
      · rw [if_neg h2]
        constructor
        · intro _
          exact Or.inr ⟨d, List.mem_cons_self d rest, h1,
            Bool.eq_false_iff.mpr h2⟩
        · intro _
          exact matchPattern_sticky pattern rest (selected ++ [d])
    · rw [if_neg h1]
      rw [ih selected m]
      constructor
      · rintro (hm | ⟨x, hx, hmx, hcx⟩)
        · exact Or.inl hm
        · exact Or.inr ⟨x, List.mem_cons_of_mem d hx, hmx, hcx⟩
      · rintro (hm | ⟨x, hx, hmx, hcx⟩)
        · exact Or.inl hm
        · rcases List.mem_cons.mp hx with hxd | hx2
          · rw [hxd] at hmx; exact absurd hmx h1
          · exact Or.inr ⟨x, hx2, hmx, hcx⟩

/-- C2 (amended): a pattern clause fails with the no-match error
exactly when every record whose lowered path matches the pattern is
already in the selection accumulated so far; with nothing selected
yet this is "zero records match", but a record matched by the pattern
and already selected by an earlier clause does not count as a match. -/
theorem matchPattern_noMatch_iff (pattern : String)
    (deps selected : List Dependency) :
    (matchPattern pattern deps selected false).2 = false ↔
      ∀ d ∈ deps, matchesPattern (toLowerStr d.Path) pattern = true →
        containsDependency selected d = true := by
  rw [Bool.eq_false_iff, ne_eq, matchPattern_snd_iff]
  simp only [Bool.false_eq_true, false_or, not_exists, not_and,
    Bool.not_eq_false]

/-- C2 counterexample: over `deps = [depA]` the input `1,a` first
selects record 1; the pattern clause `a` then matches the path of
`depA` (so at least one displayed record matches), yet the clause
fails with the no-match error. -/
theorem pattern_clause_counterexample :
    matchesPattern (toLowerStr depA.Path) "a" = true ∧
    ParseSelection "1,a" [depA] = .error (.noPatternMatch "a") :=
  ⟨rfl, rfl⟩

/-! ### Duplicate suppression -/

theorem containsDependency_iff (selected : List Dependency) (dep : Dependency) :
    containsDependency selected dep = true ↔
      dep.Path ∈ selected.map Dependency.Path := by
  unfold containsDependency
  rw [List.any_eq_true]
  constructor
  · rintro ⟨x, hx, he⟩
    exact List.mem_map.mpr ⟨x, hx, beq_iff_eq.mp he⟩
  · intro hmem
    rcases List.mem_map.mp hmem with ⟨x, hx, he⟩
    exact ⟨x, hx, beq_iff_eq.mpr he⟩

theorem append_paths_nodup {selected : List Dependency} {dep : Dependency}
    (hsel : (selected.map Dependency.Path).Nodup)
    (hnc : containsDependency selected dep = false) :
    ((selected ++ [dep]).map Dependency.Path).Nodup := by
  have hd : dep.Path ∉ selected.map Dependency.Path := fun hmem =>
    absurd ((containsDependency_iff selected dep).mpr hmem)
      (by rw [hnc]; exact Bool.false_ne_true)
  rw [List.map_append]
  exact List.Nodup.append hsel (List.nodup_singleton _)
    (List.disjoint_singleton.mpr hd)

theorem matchPattern_nodup (pattern : String) :
    ∀ (deps selected : List Dependency) (m : Bool),
      (selected.map Dependency.Path).Nodup →
      (((matchPattern pattern deps selected m).1).map Dependency.Path).Nodup := by
  intro deps
  induction deps with
  | nil => intro selected m h; exact h
  | cons d rest ih =>
    intro selected m h
    unfold matchPattern
    by_cases h1 : matchesPattern (toLowerStr d.Path) pattern = true
    · rw [if_pos h1]
      by_cases h2 : containsDependency selected d = true
      · rw [if_pos h2]; exact ih selected m h
      · rw [if_neg h2]
        exact ih (selected ++ [d]) true
          (append_paths_nodup h (Bool.eq_false_iff.mpr h2))
    · rw [if_neg h1]; exact ih selected m h

theorem parseParts_nodup (deps : List Dependency) :
    ∀ (parts : List String) (selected out : List Dependency),
      (∀ p ∈ parts, containsChar (trimStr p) '-' = false) →
      (selected.map Dependency.Path).Nodup →
      parseParts deps parts selected = .ok out →
      (out.map Dependency.Path).Nodup := by
  intro parts
  induction parts with
  | nil =>
    intro selected out _ hsel hok
    cases hok
    exact hsel
  | cons p rest ih =>
    intro selected out hnr hsel hok
    have hrest : ∀ q ∈ rest, containsChar (trimStr q) '-' = false :=
      fun q hq => hnr q (List.mem_cons_of_mem p hq)
    unfold parseParts at hok
    rw [hnr p (List.mem_cons_self p rest)] at hok
    simp only [Bool.false_eq_true, if_false] at hok
    cases hn : atoi (trimStr p) with
    | some num =>
      rw [hn] at hok
      dsimp only at hok
      by_cases hb : (num < 1 || num > (deps.length : Int) : Bool) = true
      · rw [if_pos hb] at hok; cases hok
      · rw [if_neg hb] at hok
        by_cases hc :
            containsDependency selected (deps.getD (num.toNat - 1) default) = true
        · rw [if_pos hc] at hok
          exact ih selected out hrest hsel hok
        · rw [if_neg hc] at hok
          exact ih _ out hrest
            (append_paths_nodup hsel (Bool.eq_false_iff.mpr hc)) hok
    | none =>
      rw [hn] at hok
      dsimp only at hok
      by_cases hm : (matchPattern (trimStr p) deps selected false).2 = true
      · rw [if_pos hm] at hok
        exact ih _ out hrest
          (matchPattern_nodup (trimStr p) deps selected false hsel) hok
      · rw [if_neg hm] at hok; cases hok

theorem parseSelection_paths_nodup (input : String)
    (deps out : List Dependency)
    (hdeps : (deps.map Dependency.Path).Nodup)
    (hnr : ∀ p ∈ splitStr (toLowerStr (trimStr input)) ',',
      containsChar (trimStr p) '-' = false)
    (hok : ParseSelection input deps = .ok out) :
    (out.map Dependency.Path).Nodup := by
  unfold ParseSelection at hok
  by_cases hall : toLowerStr (trimStr input) = "all"
  · simp only [hall, if_true] at hok
    cases hok
    exact hdeps
  · simp only [if_neg hall] at hok
    exact parseParts_nodup deps _ [] out hnr (by simp) hok

/-! #### First-selected-wins accumulation -/

/-- The cumulative, duplicate-suppressed, order-preserving (by first
occurrence) accumulation the spec describes: append each referenced
record in reference order unless a record with its path is already
selected, so a record keeps the position of its first selection. -/
def appendNew (selected refs : List Dependency) : List Dependency :=
  refs.foldl
    (fun sel d => if containsDependency sel d then sel else sel ++ [d])
    selected

/-- Following the spec's words, for comparison: the records a
non-range clause references, in order — a clause parsing as an
integer `n` references the record at 1-based position `n` (when in
bounds), any other clause references every record whose lowered path
matches it as a pattern, in display order. -/
def clauseRefs (deps : List Dependency) (p : String) : List Dependency :=
  match atoi (trimStr p) with
  | some num =>
    if 1 ≤ num ∧ num ≤ (deps.length : Int) then
      [deps.getD (num.toNat - 1) default]
    else []
  | none =>
    deps.filter (fun d => matchesPattern (toLowerStr d.Path) (trimStr p))

theorem appendNew_append (sel l1 l2 : List Dependency) :
    appendNew sel (l1 ++ l2) = appendNew (appendNew sel l1) l2 :=
  List.foldl_append _ _ _ _

theorem matchPattern_fst (pattern : String) :
    ∀ (deps selected : List Dependency) (m : Bool),
      (matchPattern pattern deps selected m).1 =
        appendNew selected
          (deps.filter (fun d => matchesPattern (toLowerStr d.Path) pattern)) := by
  intro deps
  induction deps with
  | nil => intro selected m; rfl
  | cons d rest ih =>
    intro selected m
    unfold matchPattern
    by_cases h1 : matchesPattern (toLowerStr d.Path) pattern = true
    · have hfc : (d :: rest).filter
          (fun d => matchesPattern (toLowerStr d.Path) pattern) =
          d :: rest.filter (fun d => matchesPattern (toLowerStr d.Path) pattern) := by
        simp [List.filter_cons, h1]
      rw [if_pos h1, hfc]
      by_cases h2 : containsDependency selected d = true
      · rw [if_pos h2, ih selected m]
        unfold appendNew
        rw [List.foldl_cons, if_pos h2]
      · rw [if_neg h2, ih (selected ++ [d]) true]
        unfold appendNew
        rw [List.foldl_cons, if_neg h2]
    · have hfc : (d :: rest).filter
          (fun d => matchesPattern (toLowerStr d.Path) pattern) =
          rest.filter (fun d => matchesPattern (toLowerStr d.Path) pattern) := by
        simp [List.filter_cons, h1]
      rw [if_neg h1, hfc, ih selected m]

theorem parseParts_first_wins (deps : List Dependency) :
    ∀ (parts : List String) (selected out : List Dependency),
      (∀ p ∈ parts, containsChar (trimStr p) '-' = false) →
      parseParts deps parts selected = .ok out →
      out = appendNew selected (parts.flatMap (clauseRefs deps)) := by
  intro parts
  induction parts with
  | nil =>
    intro selected out _ hok
    cases hok
    rfl
  | cons p rest ih =>
    intro selected out hnr hok
    have hrest : ∀ q ∈ rest, containsChar (trimStr q) '-' = false :=
      fun q hq => hnr q (List.mem_cons_of_mem p hq)
    unfold parseParts at hok
    rw [hnr p (List.mem_cons_self p rest)] at hok
    simp only [Bool.false_eq_true, if_false] at hok
    rw [List.flatMap_cons, appendNew_append]
    cases hn : atoi (trimStr p) with
    | some num =>
      rw [hn] at hok
      dsimp only at hok
      by_cases hb : (num < 1 || num > (deps.length : Int) : Bool) = true
      · rw [if_pos hb] at hok; cases hok
      · rw [if_neg hb] at hok
        have hbounds : 1 ≤ num ∧ num ≤ (deps.length : Int) := by
          simp only [Bool.or_eq_true, decide_eq_true_eq] at hb
          omega
        have hcl : clauseRefs deps p = [deps.getD (num.toNat - 1) default] := by
          unfold clauseRefs
          rw [hn]
          dsimp only
          rw [if_pos hbounds]
        rw [hcl]
        by_cases hc :
            containsDependency selected (deps.getD (num.toNat - 1) default) = true
        · rw [if_pos hc] at hok
          have hstep : appendNew selected [deps.getD (num.toNat - 1) default] =
              selected := by
            unfold appendNew
            rw [List.foldl_cons, if_pos hc]
            rfl
          rw [hstep]
          exact ih selected out hrest hok
        · rw [if_neg hc] at hok
          have hstep : appendNew selected [deps.getD (num.toNat - 1) default] =
              selected ++ [deps.getD (num.toNat - 1) default] := by
            unfold appendNew
            rw [List.foldl_cons, if_neg hc]
            rfl
          rw [hstep]
          exact ih _ out hrest hok
    | none =>
      rw [hn] at hok
      dsimp only at hok
      have hcl : clauseRefs deps p =
          deps.filter (fun d => matchesPattern (toLowerStr d.Path) (trimStr p)) := by
        unfold clauseRefs
        rw [hn]
      rw [hcl]
      by_cases hm : (matchPattern (trimStr p) deps selected false).2 = true
      · rw [if_pos hm] at hok
        have := ih _ out hrest hok
        rw [this, matchPattern_fst]
      · rw [if_neg hm] at hok; cases hok

/-- C1 (amended): provided no clause of the input contains `-` — the
range branch appends its records without the duplicate suppression the
index and pattern branches perform — and the displayed list has
pairwise-distinct paths, `ParseSelection` never returns two records
with the same path, and (short of the `all` shortcut, which returns
the list wholesale) the result is exactly the first-occurrence
deduplication of the clauses\' references in clause order: each kept
record keeps the position of its first selection. -/
theorem parseSelection_noRange_first_wins (input : String)
    (deps out : List Dependency)
    (hdeps : (deps.map Dependency.Path).Nodup)
    (hnr : ∀ p ∈ splitStr (toLowerStr (trimStr input)) ',',
      containsChar (trimStr p) '-' = false)
    (hok : ParseSelection input deps = .ok out) :
    (out.map Dependency.Path).Nodup ∧
    (toLowerStr (trimStr input) ≠ "all" →
      out = appendNew []
        ((splitStr (toLowerStr (trimStr input)) ',').flatMap (clauseRefs deps))) := by
  constructor
  · exact parseSelection_paths_nodup input deps out hdeps hnr hok
  · intro hall
    unfold ParseSelection at hok
    rw [if_neg hall] at hok
    exact parseParts_first_wins deps _ [] out hnr hok

/-- C1 counterexample: over a single-record list, `1,1-1` selects the
record by index and then again through a range clause, so the result
repeats a path. -/
theorem parseSelection_duplicate_counterexample :
    ParseSelection "1,1-1" [depA] = .ok [depA, depA] ∧
    ¬ (([depA, depA].map Dependency.Path).Nodup) :=
  ⟨rfl, by decide⟩

/-- Witness for C1: `1,1,2` over three records keeps the duplicate
index 1 only at its first position, and the result is the
first-occurrence deduplication of the clause references. -/
theorem parseSelection_first_wins_witness :
    ParseSelection "1,1,2" [depA, depB, depC] = .ok [depA, depB] ∧
    (([depA, depB].map Dependency.Path).Nodup) ∧
    [depA, depB] = appendNew []
      ((splitStr (toLowerStr (trimStr "1,1,2")) ',').flatMap
        (clauseRefs [depA, depB, depC])) :=
  ⟨rfl,
   (parseSelection_noRange_first_wins "1,1,2" [depA, depB, depC] [depA, depB]
     (by decide) (by decide) rfl).1,
   (parseSelection_noRange_first_wins "1,1,2" [depA, depB, depC] [depA, depB]
     (by decide) (by decide) rfl).2 (by decide)⟩

/-! ### Termination behavior of the interaction loop -/

/-- C7: the selection loop's terminal and non-terminal steps — a read
failure terminates with the wrapped error and no selection; an input
that trims to empty terminates cancelled, with no error and no
selection; an input whose parse fails never terminates the loop, the
loop continuing with the remaining interaction exactly as if
re-prompted. -/
theorem selectLoop_terminal_behavior (deps : List Dependency)
    (rest : List UIEvent) (msg input : String) (confirm : Bool)
    (err : SelErr) :
    (SelectLoop deps (UIEvent.readFailure msg :: rest) =
      some ⟨[], false, some ("reading input: " ++ msg)⟩) ∧
    (trimStr input = "" →
      SelectLoop deps (UIEvent.line input confirm :: rest) =
        some ⟨[], true, none⟩) ∧
    (trimStr input ≠ "" →
      ParseSelection (trimStr input) deps = .error err →
      SelectLoop deps (UIEvent.line input confirm :: rest) =
        SelectLoop deps rest) := by
  refine ⟨rfl, ?_, ?_⟩
  · intro hempty
    conv_lhs => rw [SelectLoop]
    rw [if_pos hempty]
  · intro hne herr
    conv_lhs => rw [SelectLoop]
    rw [if_neg hne, herr]

/-- Witness for C7: with one record, a blank line cancels, and the
unparsable line `zzz9` loops to the next prompt. -/
theorem selectLoop_terminal_behavior_witness :
    (SelectLoop [depA] [UIEvent.line "  " true] = some ⟨[], true, none⟩) ∧
    (SelectLoop [depA] [UIEvent.line "zzz9" true, UIEvent.line "1" true] =
      SelectLoop [depA] [UIEvent.line "1" true]) :=
  ⟨(selectLoop_terminal_behavior [depA] [] "" "  " true
      (.noPatternMatch "zzz9")).2.1 rfl,
   (selectLoop_terminal_behavior [depA] [UIEvent.line "1" true] "" "zzz9" true
      (.noPatternMatch "zzz9")).2.2 (by decide) rfl⟩

end Goup
